import Mathlib

/-!
Verification of the delegation object model of 01-oop-review.

The source builds, in several refinements, an object model in which many
entities (quiz-game users) share one bundle of behaviors: closure-based
factories (Solution 1), prototype-chain delegation via Object.create
(Solution 2), constructor functions with new (Solution 3), classes
(Solution 4), subclassing of user entities into paid-user entities, and
receiver override via Function.prototype.call.

The embedding below is a heap semantics. Entities live in a heap (a list,
index = identity); each entity has a name, numeric fields, its own stored
operations (entity-level properties holding functions, as in Solution 1),
and at most one reference into a separate list of behavior sets (the
prototype objects userFunctions and paidUserFunctions). Behavior sets hold
a mapping from operation names to operation bodies plus at most one parent
reference (the [[Prototype]] link installed by Object.setPrototypeOf).
Operation lookup walks own properties first and then the parent chain,
exactly as the JavaScript property lookup the source narrates; the walk is
fuel-bounded because parent references, like JavaScript prototype links,
are references and a cyclic configuration is expressible as data.
-/

/-- Operation bodies occurring in the source. Every variant is the body of
one of the functions stored on an object in the source file. -/
inductive Op where
  /-- this.score++ — the shared increment of userFunctionStore,
  userFunctions, userCreator.prototype and class UserCreator. -/
  | increment : Op
  /-- console.log of a fixed login message, no field mutation. -/
  | login : Op
  /-- console.log of the string built from "I am " and this.name. -/
  | sayName : Op
  /-- this.accountBalance++ — paidUserFunctions.increaseBalance and
  paidUserCreator.prototype.increaseBalance. -/
  | increaseBalance : Op
  /-- Solution 1 closure: newUser.score++ where newUser is the object the
  factory built, captured by the closure; the receiver of the call is
  ignored, the captured heap index t is mutated. -/
  | incrementAt : Nat → Op
  /-- The increment variant whose body defines add1 as an arrow function
  closing over this and then calls it: the nested call sees the original
  receiver because arrow functions bind this lexically. -/
  | incrementArrow : Op
  /-- The increment variant whose body defines add1 as a plain inner
  function and calls it undecorated: the nested call runs with this
  undefined, losing the receiver. -/
  | incrementPlain : Op
  /-- Modelled from the spec: a body of shape this[nm]() that calls
  another operation, found on the receiver by the ordinary lookup rule,
  with the same receiver — the nested-call form whose receiver handling
  the spec describes; the source file itself only exhibits the inner
  add1 variants above. -/
  | callOp : String → Op
deriving DecidableEq, Repr

/-- Error outcomes a call can produce, per the error taxonomy. -/
inductive JsError where
  /-- Operation name found at no level of the lookup chain. -/
  | missingOperation : String → JsError
  /-- Object.setPrototypeOf refused: the new parent chain reaches the
  object itself. -/
  | cyclicExtension : JsError
  /-- A field access or this-binding that the dynamic language rejects,
  tagged with the offending name. -/
  | typeError : String → JsError
  /-- Nested calls exhausted the interpreter fuel. -/
  | stackOverflow : JsError
deriving DecidableEq, Repr

/-- A behavior set: a prototype object such as userFunctions. It maps
operation names to bodies and optionally extends one parent behavior set,
named by index into the list of behavior sets. -/
structure BehaviorSet where
  ops : List (String × Op)
  parent : Option Nat
deriving DecidableEq, Repr

/-- An entity: a user object. It owns a name, numeric fields, its own
stored operations, and at most one reference to a behavior set. -/
structure Entity where
  name : String
  fields : List (String × Int)
  ownOps : List (String × Op)
  proto : Option Nat
deriving DecidableEq, Repr

/-- The whole mutable state: the behavior sets and the entity heap. -/
structure World where
  sets : List BehaviorSet
  heap : List Entity
deriving DecidableEq, Repr

instance {ε α : Type} [DecidableEq ε] [DecidableEq α] :
    DecidableEq (Except ε α) := fun a b =>
  match a, b with
  | .ok x, .ok y =>
    if h : x = y then .isTrue (by rw [h])
    else .isFalse (fun he => by cases he; exact h rfl)
  | .error x, .error y =>
    if h : x = y then .isTrue (by rw [h])
    else .isFalse (fun he => by cases he; exact h rfl)
  | .ok _, .error _ => .isFalse (fun he => by cases he)
  | .error _, .ok _ => .isFalse (fun he => by cases he)

/-- Look an operation name up in an association list of operations. -/
def lookupOp (ops : List (String × Op)) (nm : String) : Option Op :=
  match ops with
  | [] => none
  | (k, op) :: rest => if k == nm then some op else lookupOp rest nm

/-- Read a numeric field. -/
def getField (fs : List (String × Int)) (k : String) : Option Int :=
  match fs with
  | [] => none
  | (k0, v0) :: rest => if k0 == k then some v0 else getField rest k

/-- Write a numeric field, creating it when absent, as assignment does. -/
def setField (fs : List (String × Int)) (k : String) (v : Int) :
    List (String × Int) :=
  match fs with
  | [] => [(k, v)]
  | (k0, v0) :: rest =>
    if k0 == k then (k, v) :: rest else (k0, v0) :: setField rest k v

/-- The parent reference of behavior set i, none when i is out of range or
i has no parent. -/
def parOf (sets : List BehaviorSet) (i : Nat) : Option Nat :=
  match sets[i]? with
  | none => none
  | some b => b.parent

/-- Walk k parent steps from behavior set i. -/
def walkN (sets : List BehaviorSet) : Nat → Nat → Option Nat
  | 0, i => some i
  | k + 1, i =>
    match parOf sets i with
    | none => none
    | some p => walkN sets k p

/-- Does the walk from b reach a chain end within the given fuel? -/
def halts (sets : List BehaviorSet) : Nat → Option Nat → Bool
  | _, none => true
  | 0, some _ => false
  | f + 1, some b =>
    match parOf sets b with
    | none => true
    | some p => halts sets f (some p)

/-- Every behavior set finishes its parent walk within fuel one more than
the number of behavior sets: the chain configuration has no cycle. -/
def Acyclic (sets : List BehaviorSet) : Prop :=
  ∀ i, i < sets.length → halts sets (sets.length + 1) (some i) = true

instance (sets : List BehaviorSet) : Decidable (Acyclic sets) :=
  Nat.decidableBallLT _ _

/-- Does the parent chain from i reach t within the given fuel? This is
the traversal Object.setPrototypeOf performs on the proposed parent to
refuse a cyclic prototype chain. -/
def reaches (sets : List BehaviorSet) : Nat → Nat → Nat → Bool
  | 0, _, _ => false
  | f + 1, i, t =>
    i == t ||
      match parOf sets i with
      | none => false
      | some p => reaches sets f p t

/-- Object.setPrototypeOf(sets[child], sets[par]): refused with a cycle
error when the chain from par reaches child, otherwise the parent
reference of child is replaced. -/
def setPrototypeOf (sets : List BehaviorSet) (child par : Nat) :
    Except JsError (List BehaviorSet) :=
  if reaches sets (sets.length + 1) par child then
    .error .cyclicExtension
  else
    match sets[child]? with
    | none => .error (.typeError "setPrototypeOf")
    | some b => .ok (sets.set child { b with parent := some par })

/-- Resolve an operation name for the entity at heap index i: own stored
operations first, then the behavior chain starting at its proto
reference. Resolution reads the world and builds no new one. -/
def chainResolve (sets : List BehaviorSet) :
    Nat → Option Nat → String → Option Op
  | _, none, _ => none
  | 0, some _, _ => none
  | f + 1, some b, nm =>
    match sets[b]? with
    | none => none
    | some bs =>
      match lookupOp bs.ops nm with
      | some op => some op
      | none => chainResolve sets f bs.parent nm

/-- Full resolution for an entity: entity-level properties shadow the
behavior chain. -/
def resolve (w : World) (i : Nat) (nm : String) : Option Op :=
  match w.heap[i]? with
  | none => none
  | some e =>
    match lookupOp e.ownOps nm with
    | some op => some op
    | none => chainResolve w.sets (w.sets.length + 1) e.proto nm

/-- Add one to a numeric field of the entity at heap index t. -/
def bump (k : String) (w : World) (t : Nat) :
    Except JsError (World × List String) :=
  match w.heap[t]? with
  | none => .error (.typeError k)
  | some e =>
    match getField e.fields k with
    | none => .error (.typeError k)
    | some v =>
      .ok (⟨w.sets,
            w.heap.set t { e with fields := setField e.fields k (v + 1) }⟩,
           [])

/-- The body of the inner helper add1, this.score++, run with whatever
this the call gave it: the receiver for the arrow variant, nothing for
the plain inner function. -/
def add1 (w : World) (self : Option Nat) :
    Except JsError (World × List String) :=
  match self with
  | none => .error (.typeError "this")
  | some r => bump "score" w r

/-- Run one operation body with the given receiver. The fuel only matters
to bodies that call further operations. The second component collects the
console.log output. -/
def runOp : Nat → World → Op → Nat → Except JsError (World × List String)
  | _, w, .increment, r => bump "score" w r
  | _, w, .increaseBalance, r => bump "accountBalance" w r
  | _, w, .incrementAt t, _ => bump "score" w t
  | _, w, .incrementArrow, r => add1 w (some r)
  | _, w, .incrementPlain, _ => add1 w none
  | _, w, .login, _ => .ok (w, ["You are logged!"])
  | _, w, .sayName, r =>
    match w.heap[r]? with
    | none => .error (.typeError "name")
    | some e => .ok (w, ["I am " ++ e.name])
  | 0, _, .callOp _, _ => .error .stackOverflow
  | f + 1, w, .callOp nm, r =>
    match resolve w r nm with
    | none => .error (.missingOperation nm)
    | some op => runOp f w op r

/-- Default fuel for a call: enough for the operation bodies the source
defines. -/
def callFuel (w : World) : Nat := w.sets.length + w.heap.length + 1

/-- Call an operation on an entity: resolve the name for the entity, then
run the found body with that same entity as receiver. -/
def invoke (w : World) (i : Nat) (nm : String) :
    Except JsError (World × List String) :=
  match resolve w i nm with
  | none => .error (.missingOperation nm)
  | some op => runOp (callFuel w) w op i

/-- Call an operation found on a behavior set with an explicit receiver,
independent of the receiver entity and its own behavior set. -/
def invokeWith (w : World) (b : Nat) (nm : String) (r : Nat) :
    Except JsError (World × List String) :=
  match chainResolve w.sets (w.sets.length + 1) (some b) nm with
  | none => .error (.missingOperation nm)
  | some op => runOp (callFuel w) w op r

/-- Function.prototype.call: take the operation stored for entity i and
run it with the unrelated entity r as receiver. -/
def callWith (w : World) (i : Nat) (nm : String) (r : Nat) :
    Except JsError (World × List String) :=
  match resolve w i nm with
  | none => .error (.missingOperation nm)
  | some op => runOp (callFuel w) w op r

/-- Iterate invoke, keeping only the world. -/
def invokeN (w : World) (i : Nat) (nm : String) : Nat → Except JsError World
  | 0 => .ok w
  | n + 1 =>
    match invoke w i nm with
    | .error err => .error err
    | .ok (w1, _) => invokeN w1 i nm n

/-- Update the entity at heap index i in place when it exists. -/
def updateEntity (w : World) (i : Nat) (f : Entity → Entity) : World :=
  match w.heap[i]? with
  | none => w
  | some e => ⟨w.sets, w.heap.set i (f e)⟩

/-- Index of the shared base behavior set userFunctions. -/
def userFunctionsId : Nat := 0

/-- Index of the shared paid behavior set paidUserFunctions. -/
def paidUserFunctionsId : Nat := 1

/-- userFunctions: the base prototype object of the Solution 2
subclassing section, defining sayName and increment. -/
def userFunctions : BehaviorSet :=
  ⟨[("sayName", .sayName), ("increment", .increment)], none⟩

/-- paidUserFunctions as first written: only increaseBalance, parent not
yet installed. -/
def paidUserFunctionsOrig : BehaviorSet :=
  ⟨[("increaseBalance", .increaseBalance)], none⟩

/-- The behavior sets after Object.setPrototypeOf(paidUserFunctions,
userFunctions) has linked the paid set to the base set. -/
def stdSets : List BehaviorSet :=
  [userFunctions, ⟨[("increaseBalance", .increaseBalance)], some 0⟩]

/-- Running the setPrototypeOf of the source on the two freshly written
bundles produces exactly the linked standard configuration. -/
theorem stdSets_built :
    setPrototypeOf [userFunctions, paidUserFunctionsOrig]
      paidUserFunctionsId userFunctionsId = .ok stdSets := by
  decide

/-- userCreator of the Solution 2 subclassing section: allocate a fresh
entity whose prototype reference is the shared userFunctions, set name
and score, return it. The returned index is the identity of the new
entity. -/
def userCreator (w : World) (nm : String) (s : Int) : World × Nat :=
  (⟨w.sets,
    w.heap ++ [⟨nm, [("score", s)], [], some userFunctionsId⟩]⟩,
   w.heap.length)

/-- paidUserCreator: build a base user through userCreator, repoint its
prototype reference at the shared paidUserFunctions, then add the
accountBalance field. -/
def paidUserCreator (w : World) (nm : String) (s b : Int) : World × Nat :=
  let r := userCreator w nm s
  let w1 := updateEntity r.1 r.2
    (fun e => { e with proto := some paidUserFunctionsId })
  (updateEntity w1 r.2
    (fun e => { e with fields := setField e.fields "accountBalance" b }),
   r.2)

/-- userCreator of Solution 1: the increment stored on the entity itself
is a closure over the freshly built object, so it carries the index of
that object and no prototype reference is installed. -/
def userCreatorClosure (w : World) (nm : String) (s : Int) : World × Nat :=
  (⟨w.sets,
    w.heap ++ [⟨nm, [("score", s)], [("increment", .incrementAt w.heap.length)],
               none⟩]⟩,
   w.heap.length)

/-- A world holding only the linked behavior sets and an empty heap. -/
def stdWorld : World := ⟨stdSets, []⟩

/-- A written field reads back the written value. -/
theorem getField_setField_same (fs : List (String × Int)) (k : String)
    (v : Int) : getField (setField fs k v) k = some v := by
  induction fs with
  | nil => simp [getField, setField]
  | cons hd tl ih =>
    obtain ⟨k0, v0⟩ := hd
    by_cases h : k0 = k
    · simp [getField, setField, h]
    · simp [getField, setField, h, ih]

/-- Writing one field leaves every other field unchanged. -/
theorem getField_setField_ne (fs : List (String × Int)) (k k0 : String)
    (v : Int) (h : k0 ≠ k) :
    getField (setField fs k v) k0 = getField fs k0 := by
  induction fs with
  | nil => simp [getField, setField, Ne.symm h]
  | cons hd tl ih =>
    obtain ⟨k1, v1⟩ := hd
    by_cases h1 : k1 = k
    · simp [getField, setField, h1, Ne.symm h]
    · simp [getField, setField, h1, ih]

theorem lt_of_getElem?_eq_some {α : Type} {xs : List α} {i : Nat} {a : α}
    (h : xs[i]? = some a) : i < xs.length :=
  (List.getElem?_eq_some.mp h).1

/-- Overwriting the element just appended. -/
theorem concat_set {α : Type} (xs : List α) (a b : α) :
    (xs ++ [a]).set xs.length b = xs ++ [b] := by
  simp [List.set_append]

/-- Resolution only depends on the stored operations, the prototype
reference and the behavior sets. -/
theorem resolve_congr (w w1 : World) (i : Nat) (e e1 : Entity)
    (nm : String) (he : w.heap[i]? = some e) (he1 : w1.heap[i]? = some e1)
    (hops : e1.ownOps = e.ownOps) (hp : e1.proto = e.proto)
    (hs : w1.sets = w.sets) : resolve w1 i nm = resolve w i nm := by
  simp only [resolve, he, he1, hops, hp, hs]

theorem runOp_increment (f : Nat) (w : World) (r : Nat) :
    runOp f w .increment r = bump "score" w r := by
  cases f <;> rfl

theorem runOp_increaseBalance (f : Nat) (w : World) (r : Nat) :
    runOp f w .increaseBalance r = bump "accountBalance" w r := by
  cases f <;> rfl

theorem runOp_incrementAt (f : Nat) (w : World) (t r : Nat) :
    runOp f w (.incrementAt t) r = bump "score" w t := by
  cases f <;> rfl

theorem runOp_incrementArrow (f : Nat) (w : World) (r : Nat) :
    runOp f w .incrementArrow r = add1 w (some r) := by
  cases f <;> rfl

theorem runOp_sayName (f : Nat) (w : World) (r : Nat) (e : Entity)
    (he : w.heap[r]? = some e) :
    runOp f w .sayName r = .ok (w, ["I am " ++ e.name]) := by
  cases f <;> · unfold runOp; rw [he]

/-- The successful shape of a field bump. -/
theorem bump_eq (k : String) (w : World) (t : Nat) (e : Entity) (v : Int)
    (he : w.heap[t]? = some e) (hv : getField e.fields k = some v) :
    bump k w t =
      .ok (⟨w.sets,
            w.heap.set t { e with fields := setField e.fields k (v + 1) }⟩,
           []) := by
  simp only [bump, he, hv]

/-- A world holding one base user built by the factory: Phil with
score 4. -/
def demoBase : World := (userCreator stdWorld "Phil" 4).1

/-- A world holding one paid user built by the paid factory. -/
def demoPaid : World := (paidUserCreator stdWorld "Alyssa" 8 25).1

/-- A world whose single entity stores an increment of its own, shadowing
the shared one. -/
def demoOverride : World :=
  ⟨stdSets, [⟨"Eva", [("score", 9)], [("increment", .incrementAt 0)],
             some 0⟩]⟩

/-- Claim C1: resolution finds the operation body by checking the own
properties of the entity first, then the mapping of its behavior set,
then the parent chain of that set, one level at a time; whichever level
supplies the body, invoke runs it on the unchanged world with the
original entity index as receiver. Resolution itself is the pure function
resolve, which returns an operation and no world, so it mutates
nothing. -/
theorem claim1_resolution_order (w : World) (i : Nat) (e : Entity)
    (nm : String) (he : w.heap[i]? = some e) :
    (∀ op, lookupOp e.ownOps nm = some op → resolve w i nm = some op) ∧
    (lookupOp e.ownOps nm = none →
      resolve w i nm = chainResolve w.sets (w.sets.length + 1) e.proto nm) ∧
    (∀ f b bs op, w.sets[b]? = some bs → lookupOp bs.ops nm = some op →
      chainResolve w.sets (f + 1) (some b) nm = some op) ∧
    (∀ f b bs, w.sets[b]? = some bs → lookupOp bs.ops nm = none →
      chainResolve w.sets (f + 1) (some b) nm =
        chainResolve w.sets f bs.parent nm) ∧
    (∀ op, resolve w i nm = some op →
      invoke w i nm = runOp (callFuel w) w op i) := by
  refine ⟨?_, ?_, ?_, ?_, ?_⟩
  · intro op hop
    simp only [resolve, he, hop]
  · intro hop
    simp only [resolve, he, hop]
  · intro f b bs op hb hop
    simp only [chainResolve, hb, hop]
  · intro f b bs hb hop
    simp only [chainResolve, hb, hop]
  · intro op hop
    simp only [invoke, hop]

theorem claim1_resolution_order_witness :
    resolve demoOverride 0 "increment" = some (.incrementAt 0) ∧
    invoke demoBase 0 "increment" =
      runOp (callFuel demoBase) demoBase .increment 0 :=
  ⟨(claim1_resolution_order demoOverride 0
      ⟨"Eva", [("score", 9)], [("increment", .incrementAt 0)], some 0⟩
      "increment" (by decide)).1 _ (by decide),
   (claim1_resolution_order demoBase 0
      ⟨"Phil", [("score", 4)], [], some userFunctionsId⟩
      "increment" (by decide)).2.2.2.2 _ (by decide)⟩

/-- Claim C2: on any entity whose increment resolves to the shared
this.score++ body and whose score field holds s, n calls of increment
succeed and leave the score at exactly s plus n, changing no other part
of the entity and no behavior set. -/
theorem claim2_increment_adds_n (n : Nat) :
    ∀ (w : World) (i : Nat) (e : Entity) (s : Int),
      w.heap[i]? = some e →
      resolve w i "increment" = some .increment →
      getField e.fields "score" = some s →
      ∃ w1 e1, invokeN w i "increment" n = .ok w1 ∧
        w1.heap[i]? = some e1 ∧
        getField e1.fields "score" = some (s + n) ∧
        e1.name = e.name ∧ e1.ownOps = e.ownOps ∧ e1.proto = e.proto ∧
        w1.sets = w.sets := by
  induction n with
  | zero =>
    intro w i e s he _ hs
    exact ⟨w, e, rfl, he, by simpa using hs, rfl, rfl, rfl, rfl⟩
  | succ n ih =>
    intro w i e s he hr hs
    have hlt : i < w.heap.length := lt_of_getElem?_eq_some he
    have hstep : invoke w i "increment" =
        .ok (⟨w.sets, w.heap.set i
          { e with fields := setField e.fields "score" (s + 1) }⟩, []) := by
      simp only [invoke, hr, runOp_increment,
        bump_eq "score" w i e s he hs]
    have he1 : (⟨w.sets, w.heap.set i
        { e with fields := setField e.fields "score" (s + 1) }⟩ :
          World).heap[i]? =
        some { e with fields := setField e.fields "score" (s + 1) } :=
      List.getElem?_set_self hlt
    have hr1 : resolve (⟨w.sets, w.heap.set i
        { e with fields := setField e.fields "score" (s + 1) }⟩ : World) i
        "increment" = some .increment := by
      rw [resolve_congr w _ i e
        { e with fields := setField e.fields "score" (s + 1) }
        "increment" he he1 rfl rfl rfl, hr]
    obtain ⟨w2, e2, hinv, hee, hsc, hnm, hops, hpr, hsets⟩ :=
      ih _ i { e with fields := setField e.fields "score" (s + 1) } (s + 1)
        he1 hr1 (getField_setField_same _ _ _)
    refine ⟨w2, e2, ?_, hee, ?_, hnm, hops, hpr, hsets⟩
    · simp only [invokeN, hstep]
      exact hinv
    · rw [hsc]
      congr 1
      push_cast
      ring

theorem claim2_increment_adds_n_witness :
    ∃ w1 e1, invokeN demoBase 0 "increment" 3 = .ok w1 ∧
      w1.heap[0]? = some e1 ∧
      getField e1.fields "score" = some ((4 : Int) + ((3 : Nat) : Int)) ∧
      e1.name = (⟨"Phil", [("score", 4)], [], some userFunctionsId⟩ :
        Entity).name ∧
      e1.ownOps = (⟨"Phil", [("score", 4)], [], some userFunctionsId⟩ :
        Entity).ownOps ∧
      e1.proto = (⟨"Phil", [("score", 4)], [], some userFunctionsId⟩ :
        Entity).proto ∧
      w1.sets = demoBase.sets :=
  claim2_increment_adds_n 3 demoBase 0
    ⟨"Phil", [("score", 4)], [], some userFunctionsId⟩ 4
    (by decide) (by decide) (by decide)

/-- The paid factory amounts to appending one fresh entity that carries
score and accountBalance and refers to the shared paid behavior set. -/
theorem paidUserCreator_eq (w : World) (nm : String) (s b : Int) :
    paidUserCreator w nm s b =
      (⟨w.sets, w.heap ++
        [⟨nm, [("score", s), ("accountBalance", b)], [],
          some paidUserFunctionsId⟩]⟩, w.heap.length) := by
  unfold paidUserCreator userCreator updateEntity
  simp only [List.getElem?_concat_length, concat_set, setField]
  rfl

/-- Claim C5: an operation name defined at no level of the lookup chain
makes invoke return the missing-operation error to the caller; no world
is produced, so nothing is mutated and nothing crashes. -/
theorem claim5_missing_op (w : World) (i : Nat) (nm : String)
    (h : resolve w i nm = none) :
    invoke w i nm = .error (.missingOperation nm) := by
  simp only [invoke, h]

theorem claim5_missing_op_witness :
    invoke demoBase 0 "noSuchOp" =
      .error (.missingOperation "noSuchOp") ∧
    invoke demoPaid 0 "noSuchOp" =
      .error (.missingOperation "noSuchOp") :=
  ⟨claim5_missing_op demoBase 0 "noSuchOp" (by decide),
   claim5_missing_op demoPaid 0 "noSuchOp" (by decide)⟩

/-- The world after the increaseBalance call of the Alyssa example. -/
def demoPaid1 : World :=
  ⟨stdSets,
   [⟨"Alyssa", [("score", 8), ("accountBalance", 26)], [], some 1⟩]⟩

/-- The world after the following increment call of the Alyssa example. -/
def demoPaid2 : World :=
  ⟨stdSets,
   [⟨"Alyssa", [("score", 9), ("accountBalance", 26)], [], some 1⟩]⟩

/-- Claim C3: on any entity whose increaseBalance resolves to the shared
this.accountBalance++ body, n calls of increaseBalance add exactly n to
accountBalance and leave the score and every other part of the entity
unchanged; and in particular the Alyssa example runs to accountBalance 26
and score 9. -/
theorem claim3_increaseBalance_frame :
    (∀ (n : Nat) (w : World) (i : Nat) (e : Entity) (b s : Int),
      w.heap[i]? = some e →
      resolve w i "increaseBalance" = some .increaseBalance →
      getField e.fields "accountBalance" = some b →
      getField e.fields "score" = some s →
      ∃ w1 e1, invokeN w i "increaseBalance" n = .ok w1 ∧
        w1.heap[i]? = some e1 ∧
        getField e1.fields "accountBalance" = some (b + n) ∧
        getField e1.fields "score" = some s ∧
        e1.name = e.name ∧ e1.ownOps = e.ownOps ∧ e1.proto = e.proto ∧
        w1.sets = w.sets) ∧
    (paidUserCreator stdWorld "Alyssa" 8 25).2 = 0 ∧
    invoke demoPaid 0 "increaseBalance" = .ok (demoPaid1, []) ∧
    invoke demoPaid1 0 "increment" = .ok (demoPaid2, []) ∧
    (∃ e2, demoPaid2.heap[0]? = some e2 ∧
      getField e2.fields "accountBalance" = some 26 ∧
      getField e2.fields "score" = some 9) := by
  refine ⟨?_, by decide, by decide, by decide,
    ⟨⟨"Alyssa", [("score", 9), ("accountBalance", 26)], [], some 1⟩,
      by decide, by decide, by decide⟩⟩
  intro n
  induction n with
  | zero =>
    intro w i e b s he _ hb hs
    exact ⟨w, e, rfl, he, by simpa using hb, hs, rfl, rfl, rfl, rfl⟩
  | succ n ih =>
    intro w i e b s he hr hb hs
    have hlt : i < w.heap.length := lt_of_getElem?_eq_some he
    have hstep : invoke w i "increaseBalance" =
        .ok (⟨w.sets, w.heap.set i
          { e with fields :=
              setField e.fields "accountBalance" (b + 1) }⟩, []) := by
      simp only [invoke, hr, runOp_increaseBalance,
        bump_eq "accountBalance" w i e b he hb]
    have he1 : (⟨w.sets, w.heap.set i
        { e with fields := setField e.fields "accountBalance" (b + 1) }⟩ :
          World).heap[i]? =
        some { e with fields := setField e.fields "accountBalance" (b + 1) } :=
      List.getElem?_set_self hlt
    have hr1 : resolve (⟨w.sets, w.heap.set i
        { e with fields := setField e.fields "accountBalance" (b + 1) }⟩ :
          World) i
        "increaseBalance" = some .increaseBalance := by
      rw [resolve_congr w _ i e
        { e with fields := setField e.fields "accountBalance" (b + 1) }
        "increaseBalance" he he1 rfl rfl rfl, hr]
    have hs1 : getField
        ({ e with fields := setField e.fields "accountBalance" (b + 1) } :
          Entity).fields
        "score" = some s := by
      rw [getField_setField_ne e.fields "accountBalance" "score" (b + 1)
        (by decide)]
      exact hs
    obtain ⟨w2, e2, hinv, hee, hba, hsc, hnm, hops, hpr, hsets⟩ :=
      ih _ i { e with fields := setField e.fields "accountBalance" (b + 1) }
        (b + 1) s he1 hr1 (getField_setField_same _ _ _) hs1
    refine ⟨w2, e2, ?_, hee, ?_, hsc, hnm, hops, hpr, hsets⟩
    · simp only [invokeN, hstep]
      exact hinv
    · rw [hba]
      congr 1
      push_cast
      ring

theorem claim3_increaseBalance_frame_witness :
    ∃ w1 e1, invokeN demoPaid 0 "increaseBalance" 2 = .ok w1 ∧
      w1.heap[0]? = some e1 ∧
      getField e1.fields "accountBalance" =
        some ((25 : Int) + ((2 : Nat) : Int)) ∧
      getField e1.fields "score" = some 8 ∧
      e1.name = (⟨"Alyssa", [("score", 8), ("accountBalance", 25)], [],
        some 1⟩ : Entity).name ∧
      e1.ownOps = (⟨"Alyssa", [("score", 8), ("accountBalance", 25)], [],
        some 1⟩ : Entity).ownOps ∧
      e1.proto = (⟨"Alyssa", [("score", 8), ("accountBalance", 25)], [],
        some 1⟩ : Entity).proto ∧
      w1.sets = demoPaid.sets :=
  claim3_increaseBalance_frame.1 2 demoPaid 0
    ⟨"Alyssa", [("score", 8), ("accountBalance", 25)], [], some 1⟩ 25 8
    (by decide) (by decide) (by decide) (by decide)

/-- Claim C4: the paid behavior set stores no copy of the base
operations; on an entity built by the paid factory both increment and
sayName resolve through the extension chain to the base bodies, the
increment raises the score, and the sayName greets with the paid name. -/
theorem claim4_paid_delegation (w : World) (nm : String) (s b : Int)
    (hw : w.sets = stdSets) :
    (∀ bs, stdSets[paidUserFunctionsId]? = some bs →
      lookupOp bs.ops "increment" = none ∧
      lookupOp bs.ops "sayName" = none) ∧
    resolve (paidUserCreator w nm s b).1 (paidUserCreator w nm s b).2
      "increment" = some .increment ∧
    resolve (paidUserCreator w nm s b).1 (paidUserCreator w nm s b).2
      "sayName" = some .sayName ∧
    invoke (paidUserCreator w nm s b).1 (paidUserCreator w nm s b).2
      "increment" =
      .ok (⟨w.sets, w.heap ++
        [⟨nm, [("score", s + 1), ("accountBalance", b)], [],
          some paidUserFunctionsId⟩]⟩, []) ∧
    invoke (paidUserCreator w nm s b).1 (paidUserCreator w nm s b).2
      "sayName" =
      .ok ((paidUserCreator w nm s b).1, ["I am " ++ nm]) := by
  rw [paidUserCreator_eq]
  dsimp only
  have hpe : (w.heap ++
      [(⟨nm, [("score", s), ("accountBalance", b)], [],
        some paidUserFunctionsId⟩ : Entity)])[w.heap.length]? =
      some ⟨nm, [("score", s), ("accountBalance", b)], [],
        some paidUserFunctionsId⟩ :=
    List.getElem?_concat_length _ _
  have hri : resolve
      ⟨w.sets, w.heap ++ [⟨nm, [("score", s), ("accountBalance", b)], [],
        some paidUserFunctionsId⟩]⟩ w.heap.length "increment" =
      some .increment := by
    simp only [resolve, hpe, lookupOp]
    rw [hw]
    decide
  have hrs : resolve
      ⟨w.sets, w.heap ++ [⟨nm, [("score", s), ("accountBalance", b)], [],
        some paidUserFunctionsId⟩]⟩ w.heap.length "sayName" =
      some .sayName := by
    simp only [resolve, hpe, lookupOp]
    rw [hw]
    decide
  have hinc : invoke
      ⟨w.sets, w.heap ++ [⟨nm, [("score", s), ("accountBalance", b)], [],
        some paidUserFunctionsId⟩]⟩ w.heap.length "increment" =
      .ok (⟨w.sets, w.heap ++
        [⟨nm, [("score", s + 1), ("accountBalance", b)], [],
          some paidUserFunctionsId⟩]⟩, []) := by
    simp only [invoke, hri, runOp_increment]
    have hb := bump_eq "score"
      ⟨w.sets, w.heap ++ [⟨nm, [("score", s), ("accountBalance", b)], [],
        some paidUserFunctionsId⟩]⟩ w.heap.length
      ⟨nm, [("score", s), ("accountBalance", b)], [],
        some paidUserFunctionsId⟩ s hpe rfl
    dsimp only at hb
    rw [concat_set] at hb
    exact hb
  have hsay : invoke
      ⟨w.sets, w.heap ++ [⟨nm, [("score", s), ("accountBalance", b)], [],
        some paidUserFunctionsId⟩]⟩ w.heap.length "sayName" =
      .ok (⟨w.sets, w.heap ++
        [⟨nm, [("score", s), ("accountBalance", b)], [],
          some paidUserFunctionsId⟩]⟩, ["I am " ++ nm]) := by
    simp only [invoke, hrs]
    exact runOp_sayName _ _ _
      ⟨nm, [("score", s), ("accountBalance", b)], [],
        some paidUserFunctionsId⟩ hpe
  exact ⟨by decide, hri, hrs, hinc, hsay⟩

theorem claim4_paid_delegation_witness :
    resolve (paidUserCreator stdWorld "Alyssa" 8 25).1
      (paidUserCreator stdWorld "Alyssa" 8 25).2 "increment" =
      some .increment ∧
    invoke (paidUserCreator stdWorld "Alyssa" 8 25).1
      (paidUserCreator stdWorld "Alyssa" 8 25).2 "increment" =
      .ok (⟨stdWorld.sets, stdWorld.heap ++
        [⟨"Alyssa", [("score", 8 + 1), ("accountBalance", 25)], [],
          some paidUserFunctionsId⟩]⟩, []) :=
  ⟨(claim4_paid_delegation stdWorld "Alyssa" 8 25 rfl).2.1,
   (claim4_paid_delegation stdWorld "Alyssa" 8 25 rfl).2.2.2.1⟩

/-- A successful bump never touches the behavior sets. -/
theorem bump_sets (k : String) (w : World) (t : Nat) (w1 : World)
    (log : List String) (h : bump k w t = .ok (w1, log)) :
    w1.sets = w.sets := by
  cases hh : w.heap[t]? with
  | none =>
    simp only [bump, hh] at h
    cases h
  | some e =>
    cases hg : getField e.fields k with
    | none =>
      simp only [bump, hh, hg] at h
      cases h
    | some v =>
      simp only [bump, hh, hg, Except.ok.injEq, Prod.mk.injEq] at h
      rw [← h.1]

/-- A successful operation run never touches the behavior sets. -/
theorem runOp_sets : ∀ (f : Nat) (w : World) (op : Op) (r : Nat)
    (w1 : World) (log : List String),
    runOp f w op r = .ok (w1, log) → w1.sets = w.sets := by
  intro f
  induction f with
  | zero =>
    intro w op r w1 log h
    cases op with
    | increment => exact bump_sets _ _ _ _ _ h
    | increaseBalance => exact bump_sets _ _ _ _ _ h
    | incrementAt t => exact bump_sets _ _ _ _ _ h
    | incrementArrow => exact bump_sets _ _ _ _ _ h
    | incrementPlain => cases h
    | login =>
      simp only [runOp, Except.ok.injEq, Prod.mk.injEq] at h
      rw [← h.1]
    | sayName =>
      cases hh : w.heap[r]? with
      | none =>
        simp only [runOp, hh] at h
        cases h
      | some e =>
        simp only [runOp, hh, Except.ok.injEq, Prod.mk.injEq] at h
        rw [← h.1]
    | callOp nm => cases h
  | succ f ih =>
    intro w op r w1 log h
    cases op with
    | increment => exact bump_sets _ _ _ _ _ h
    | increaseBalance => exact bump_sets _ _ _ _ _ h
    | incrementAt t => exact bump_sets _ _ _ _ _ h
    | incrementArrow => exact bump_sets _ _ _ _ _ h
    | incrementPlain => cases h
    | login =>
      simp only [runOp, Except.ok.injEq, Prod.mk.injEq] at h
      rw [← h.1]
    | sayName =>
      cases hh : w.heap[r]? with
      | none =>
        simp only [runOp, hh] at h
        cases h
      | some e =>
        simp only [runOp, hh, Except.ok.injEq, Prod.mk.injEq] at h
        rw [← h.1]
    | callOp nm =>
      cases hr : resolve w r nm with
      | none =>
        simp only [runOp, hr] at h
        cases h
      | some op2 =>
        simp only [runOp, hr] at h
        exact ih w op2 r w1 log h

/-- A world over the standard sets whose single entity has no behavior
set of its own at all. -/
def demoLoner : World := ⟨stdSets, [⟨"Solo", [("score", 10)], [], none⟩]⟩

/-- Claim C7: an operation found on a behavior set, called with an
explicit receiver, runs on that receiver whatever the kind of the
receiver is; borrowing increment from userFunctions bumps the score of
the receiver while its name, stored operations and prototype reference
stay untouched, so the call never changes which behavior set the
receiver refers to. -/
theorem claim7_invokeWith_override :
    (∀ (w : World) (bIdx r : Nat) (nm : String) (op : Op),
      chainResolve w.sets (w.sets.length + 1) (some bIdx) nm = some op →
      invokeWith w bIdx nm r = runOp (callFuel w) w op r) ∧
    (∀ (w : World) (r : Nat) (e : Entity) (s : Int),
      w.sets = stdSets → w.heap[r]? = some e →
      getField e.fields "score" = some s →
      invokeWith w userFunctionsId "increment" r =
        .ok (⟨w.sets, w.heap.set r
          { e with fields := setField e.fields "score" (s + 1) }⟩, []) ∧
      ∃ e1, (w.heap.set r
          { e with fields := setField e.fields "score" (s + 1) })[r]? =
          some e1 ∧ e1.proto = e.proto ∧ e1.ownOps = e.ownOps ∧
          e1.name = e.name ∧
          getField e1.fields "score" = some (s + 1)) := by
  constructor
  · intro w bIdx r nm op h
    simp only [invokeWith, h]
  · intro w r e s hw he hs
    have hcr : chainResolve w.sets (w.sets.length + 1)
        (some userFunctionsId) "increment" = some .increment := by
      rw [hw]
      decide
    refine ⟨?_, ?_⟩
    · simp only [invokeWith, hcr, runOp_increment,
        bump_eq "score" w r e s he hs]
    · exact ⟨{ e with fields := setField e.fields "score" (s + 1) },
        List.getElem?_set_self (lt_of_getElem?_eq_some he), rfl, rfl, rfl,
        getField_setField_same _ _ _⟩

theorem claim7_invokeWith_override_witness :
    invokeWith demoLoner userFunctionsId "increment" 0 =
      .ok (⟨demoLoner.sets, demoLoner.heap.set 0
        { (⟨"Solo", [("score", 10)], [], none⟩ : Entity) with
          fields := setField [("score", 10)] "score" (10 + 1) }⟩, []) ∧
    ∃ e1, (demoLoner.heap.set 0
        { (⟨"Solo", [("score", 10)], [], none⟩ : Entity) with
          fields := setField [("score", 10)] "score" (10 + 1) })[0]? =
        some e1 ∧ e1.proto = none ∧ e1.ownOps = [] ∧ e1.name = "Solo" ∧
        getField e1.fields "score" = some (10 + 1) :=
  claim7_invokeWith_override.2 demoLoner 0
    ⟨"Solo", [("score", 10)], [], none⟩ 10 rfl (by decide) (by decide)

/-- A world whose entity stores a body that calls increment through the
ordinary lookup rule. -/
def demoNested : World :=
  ⟨stdSets,
   [⟨"Eva", [("score", 9)], [("boost", .callOp "increment")], some 0⟩]⟩

/-- Claim C8: a body that calls another operation found by the same
resolution rule runs the nested body with the original receiver index,
never with the level that defined it; the arrow-function increment
likewise hands its own receiver on to the nested add1. -/
theorem claim8_nested_receiver (w : World) (r : Nat) (nm : String)
    (op : Op) (f : Nat) (h : resolve w r nm = some op) :
    runOp (f + 1) w (.callOp nm) r = runOp f w op r ∧
    runOp f w .incrementArrow r = bump "score" w r := by
  constructor
  · simp only [runOp, h]
  · exact runOp_incrementArrow f w r

theorem claim8_nested_receiver_witness :
    runOp (1 + 1) demoNested (.callOp "increment") 0 =
      runOp 1 demoNested .increment 0 ∧
    runOp 1 demoNested .incrementArrow 0 = bump "score" demoNested 0 :=
  claim8_nested_receiver demoNested 0 "increment" .increment 1 (by decide)

/-- Claim C9: both factories attach the one shared behavior set of their
kind by reference, the behavior sets are not touched by a factory call,
and no successful invoke or invokeWith ever changes any behavior set:
mappings and parent references are fixed after construction. -/
theorem claim9_shared_immutable :
    (∀ (w : World) (nm : String) (s : Int),
      (userCreator w nm s).1.sets = w.sets ∧
      ∃ e, (userCreator w nm s).1.heap[(userCreator w nm s).2]? = some e ∧
        e.proto = some userFunctionsId) ∧
    (∀ (w : World) (nm : String) (s b : Int),
      (paidUserCreator w nm s b).1.sets = w.sets ∧
      ∃ e, (paidUserCreator w nm s b).1.heap[(paidUserCreator w nm s b).2]? =
        some e ∧ e.proto = some paidUserFunctionsId) ∧
    (∀ (w : World) (i : Nat) (nm : String) (w1 : World) (log : List String),
      invoke w i nm = .ok (w1, log) → w1.sets = w.sets) ∧
    (∀ (w : World) (bIdx : Nat) (nm : String) (r : Nat) (w1 : World)
      (log : List String),
      invokeWith w bIdx nm r = .ok (w1, log) → w1.sets = w.sets) := by
  refine ⟨?_, ?_, ?_, ?_⟩
  · intro w nm s
    exact ⟨rfl, _, List.getElem?_concat_length _ _, rfl⟩
  · intro w nm s b
    rw [paidUserCreator_eq]
    exact ⟨rfl, _, List.getElem?_concat_length _ _, rfl⟩
  · intro w i nm w1 log h
    cases hr : resolve w i nm with
    | none => simp only [invoke, hr] at h; cases h
    | some op =>
      simp only [invoke, hr] at h
      exact runOp_sets _ _ _ _ _ _ h
  · intro w bIdx nm r w1 log h
    cases hr : chainResolve w.sets (w.sets.length + 1) (some bIdx) nm with
    | none => simp only [invokeWith, hr] at h; cases h
    | some op =>
      simp only [invokeWith, hr] at h
      exact runOp_sets _ _ _ _ _ _ h

theorem claim9_shared_immutable_witness :
    (⟨stdSets, [⟨"Phil", [("score", 5)], [], some 0⟩]⟩ : World).sets =
      demoBase.sets :=
  claim9_shared_immutable.2.2.1 demoBase 0 "increment"
    ⟨stdSets, [⟨"Phil", [("score", 5)], [], some 0⟩]⟩ [] (by decide)

/-- Two concat lists with different last element agree away from the
appended position. -/
theorem getElem?_concat_ne {α : Type} (xs : List α) (a b : α) (r : Nat)
    (h : r ≠ xs.length) : (xs ++ [a])[r]? = (xs ++ [b])[r]? := by
  rcases Nat.lt_or_ge r xs.length with hlt | hge
  · rw [List.getElem?_append, List.getElem?_append, if_pos hlt,
      if_pos hlt]
  · have h1 : (xs ++ [a]).length ≤ r := by
      simp only [List.length_append, List.length_singleton]
      omega
    have h2 : (xs ++ [b]).length ≤ r := by
      simp only [List.length_append, List.length_singleton]
      omega
    rw [List.getElem?_eq_none h1, List.getElem?_eq_none h2]

/-- Claim C10: the Solution 1 factory stores on the new entity an
increment that closes over the entity itself, so invoking it always
bumps that entity; running the stored body with a call-time receiver
override still bumps the original entity, and the supplied receiver is
left exactly as it was. -/
theorem claim10_closure_receiver (w : World) (nm : String) (s : Int)
    (r : Nat) (hr : r ≠ (userCreatorClosure w nm s).2) :
    invoke (userCreatorClosure w nm s).1 (userCreatorClosure w nm s).2
      "increment" =
      .ok (⟨w.sets, w.heap ++
        [⟨nm, [("score", s + 1)],
          [("increment", .incrementAt w.heap.length)], none⟩]⟩, []) ∧
    callWith (userCreatorClosure w nm s).1 (userCreatorClosure w nm s).2
      "increment" r =
      invoke (userCreatorClosure w nm s).1 (userCreatorClosure w nm s).2
        "increment" ∧
    (⟨w.sets, w.heap ++
        [⟨nm, [("score", s + 1)],
          [("increment", .incrementAt w.heap.length)], none⟩]⟩ :
      World).heap[r]? = (userCreatorClosure w nm s).1.heap[r]? := by
  unfold userCreatorClosure at *
  dsimp only at *
  have hpe : (w.heap ++
      [(⟨nm, [("score", s)],
        [("increment", .incrementAt w.heap.length)], none⟩ :
          Entity)])[w.heap.length]? =
      some ⟨nm, [("score", s)],
        [("increment", .incrementAt w.heap.length)], none⟩ :=
    List.getElem?_concat_length _ _
  have hres : resolve
      ⟨w.sets, w.heap ++ [⟨nm, [("score", s)],
        [("increment", .incrementAt w.heap.length)], none⟩]⟩
      w.heap.length "increment" =
      some (.incrementAt w.heap.length) := by
    simp only [resolve, hpe, lookupOp]
    rfl
  have hbump : bump "score"
      (⟨w.sets, w.heap ++ [⟨nm, [("score", s)],
        [("increment", .incrementAt w.heap.length)], none⟩]⟩ : World)
      w.heap.length =
      .ok (⟨w.sets, w.heap ++
        [⟨nm, [("score", s + 1)],
          [("increment", .incrementAt w.heap.length)], none⟩]⟩, []) := by
    have hb := bump_eq "score"
      ⟨w.sets, w.heap ++ [⟨nm, [("score", s)],
        [("increment", .incrementAt w.heap.length)], none⟩]⟩
      w.heap.length
      ⟨nm, [("score", s)],
        [("increment", .incrementAt w.heap.length)], none⟩ s hpe rfl
    dsimp only at hb
    rw [concat_set] at hb
    exact hb
  refine ⟨?_, ?_, ?_⟩
  · simp only [invoke, hres, runOp_incrementAt]
    exact hbump
  · simp only [invoke, callWith, hres, runOp_incrementAt]
  · exact getElem?_concat_ne w.heap _ _ r hr

theorem claim10_closure_receiver_witness :
    invoke (userCreatorClosure stdWorld "Phil" 4).1
      (userCreatorClosure stdWorld "Phil" 4).2 "increment" =
      .ok (⟨stdWorld.sets, stdWorld.heap ++
        [⟨"Phil", [("score", 4 + 1)],
          [("increment", .incrementAt stdWorld.heap.length)], none⟩]⟩,
        []) ∧
    callWith (userCreatorClosure stdWorld "Phil" 4).1
      (userCreatorClosure stdWorld "Phil" 4).2 "increment" 7 =
      invoke (userCreatorClosure stdWorld "Phil" 4).1
        (userCreatorClosure stdWorld "Phil" 4).2 "increment" ∧
    (⟨stdWorld.sets, stdWorld.heap ++
        [⟨"Phil", [("score", 4 + 1)],
          [("increment", .incrementAt stdWorld.heap.length)], none⟩]⟩ :
      World).heap[7]? =
      (userCreatorClosure stdWorld "Phil" 4).1.heap[7]? :=
  claim10_closure_receiver stdWorld "Phil" 4 7 (by decide)

/-- Splitting a parent walk at an intermediate point. -/
theorem walkN_add (sets : List BehaviorSet) :
    ∀ (a b i : Nat), walkN sets (a + b) i =
      (walkN sets a i).bind (walkN sets b) := by
  intro a
  induction a with
  | zero =>
    intro b i
    simp [walkN]
  | succ a ih =>
    intro b i
    have hco : a + 1 + b = (a + b) + 1 := by omega
    rw [hco]
    simp only [walkN]
    cases parOf sets i with
    | none => simp
    | some p => simp [ih b p]

/-- A non-halting walk has a node at every step, and away from the last
step that node still has a parent. -/
theorem notHalts_walk (sets : List BehaviorSet) :
    ∀ (f b : Nat), halts sets f (some b) = false →
      ∀ k, k ≤ f → ∃ c, walkN sets k b = some c ∧
        (k < f → parOf sets c ≠ none) := by
  intro f
  induction f with
  | zero =>
    intro b h k hk
    have hk0 : k = 0 := by omega
    subst hk0
    exact ⟨b, rfl, fun hlt => absurd hlt (by omega)⟩
  | succ f ih =>
    intro b h k hk
    cases hp : parOf sets b with
    | none =>
      simp only [halts, hp] at h
      exact Bool.noConfusion h
    | some p =>
      have h2 : halts sets f (some p) = false := by
        simp only [halts, hp] at h
        exact h
      cases k with
      | zero =>
        refine ⟨b, rfl, fun _ => ?_⟩
        rw [hp]
        exact fun hc => by cases hc
      | succ j =>
        obtain ⟨c, hc, hcp⟩ := ih p h2 j (by omega)
        refine ⟨c, ?_, fun hlt => hcp (by omega)⟩
        simp only [walkN, hp]
        exact hc

/-- A halting walk cannot produce nodes beyond its fuel. -/
theorem halts_walk_lt (sets : List BehaviorSet) :
    ∀ (f b : Nat), halts sets f (some b) = true →
      ∀ k c, walkN sets k b = some c → k < f := by
  intro f
  induction f with
  | zero =>
    intro b h
    simp [halts] at h
  | succ f ih =>
    intro b h k c hw
    cases hp : parOf sets b with
    | none =>
      cases k with
      | zero => omega
      | succ j =>
        simp only [walkN, hp] at hw
        cases hw
    | some p =>
      have h2 : halts sets f (some p) = true := by
        simp only [halts, hp] at h
        exact h
      cases k with
      | zero => omega
      | succ j =>
        simp only [walkN, hp] at hw
        have := ih p h2 j c hw
        omega

/-- A cycle can be pumped to any multiple of its length. -/
theorem cycle_pump (sets : List BehaviorSet) (m k : Nat)
    (h : walkN sets (k + 1) m = some m) :
    ∀ j, walkN sets (j * (k + 1)) m = some m := by
  intro j
  induction j with
  | zero => simp [walkN]
  | succ j ih =>
    have hco : (j + 1) * (k + 1) = j * (k + 1) + (k + 1) := by ring
    rw [hco, walkN_add, ih]
    simpa using h

/-- A parent reference forces the owner to be a stored behavior set. -/
theorem lt_of_parOf_ne_none (sets : List BehaviorSet) (c : Nat)
    (h : parOf sets c ≠ none) : c < sets.length := by
  by_contra hc
  apply h
  unfold parOf
  rw [List.getElem?_eq_none (by omega)]

/-- Bounded halting rules every cycle out. -/
theorem noCycles_of_acyclic (sets : List BehaviorSet) (h : Acyclic sets) :
    ∀ m k, walkN sets (k + 1) m ≠ some m := by
  intro m k hcyc
  by_cases hm : m < sets.length
  · have hpump := cycle_pump sets m k hcyc (sets.length + 1)
    have hlt := halts_walk_lt sets (sets.length + 1) m (h m hm)
      ((sets.length + 1) * (k + 1)) m hpump
    have hge : (sets.length + 1) * 1 ≤ (sets.length + 1) * (k + 1) :=
      Nat.mul_le_mul_left _ (by omega)
    simp only [Nat.mul_one] at hge
    omega
  · have hp : parOf sets m = none := by
      unfold parOf
      rw [List.getElem?_eq_none (by omega)]
    simp only [walkN, hp] at hcyc
    cases hcyc

/-- Two positions of a walk carrying the same node give a genuine cycle
on that node. -/
theorem walk_repeat_cycle (sets : List BehaviorSet) (i x k1 k2 : Nat)
    (hk : k1 < k2) (h1 : walkN sets k1 i = some x)
    (h2 : walkN sets k2 i = some x) :
    walkN sets ((k2 - k1 - 1) + 1) x = some x := by
  have hco : k2 = k1 + (k2 - k1) := by omega
  rw [hco, walkN_add, h1] at h2
  dsimp only [Option.bind] at h2
  have hco2 : k2 - k1 - 1 + 1 = k2 - k1 := by omega
  rw [hco2]
  exact h2

/-- Pigeonhole: a configuration without cycles halts within the bound,
node count plus one. -/
theorem acyclic_of_noCycles (sets : List BehaviorSet)
    (h : ∀ m k, walkN sets (k + 1) m ≠ some m) : Acyclic sets := by
  intro i hi
  cases hh : halts sets (sets.length + 1) (some i) with
  | true => rfl
  | false =>
    exfalso
    have hbound : ∀ k : Fin (sets.length + 1),
        ∃ c, walkN sets k.1 i = some c ∧ c < sets.length := by
      intro k
      obtain ⟨c, hc, hp⟩ :=
        notHalts_walk sets (sets.length + 1) i hh k.1 (by omega)
      exact ⟨c, hc, lt_of_parOf_ne_none sets c (hp k.2)⟩
    choose cfun hcw hcl using hbound
    obtain ⟨a, b, hne, heq⟩ :=
      Fintype.exists_ne_map_eq_of_card_lt
        (fun k : Fin (sets.length + 1) => (⟨cfun k, hcl k⟩ : Fin sets.length))
        (by simp)
    have heqv : cfun a = cfun b := congrArg Fin.val heq
    rcases Nat.lt_or_ge a.1 b.1 with hab | hab
    · exact h (cfun a) (b.1 - a.1 - 1)
        (walk_repeat_cycle sets i (cfun a) a.1 b.1 hab (hcw a)
          (heqv ▸ hcw b))
    · have hba : b.1 < a.1 := by
        rcases Nat.lt_or_ge b.1 a.1 with hh2 | hh2
        · exact hh2
        · exact absurd (Fin.ext (by omega)) hne
      exact h (cfun b) (a.1 - b.1 - 1)
        (walk_repeat_cycle sets i (cfun b) b.1 a.1 hba (hcw b)
          (heqv ▸ hcw a))

/-- A walk that avoids the updated index is unaffected by the update. -/
theorem walk_agree (sets : List BehaviorSet) (i : Nat) (bs2 : BehaviorSet) :
    ∀ (r m : Nat),
      (∀ t y, t < r → walkN (sets.set i bs2) t m = some y → y ≠ i) →
      walkN (sets.set i bs2) r m = walkN sets r m := by
  intro r
  induction r with
  | zero =>
    intro m _
    rfl
  | succ r ih =>
    intro m havoid
    have hm : m ≠ i := havoid 0 m (by omega) rfl
    have hpar : parOf (sets.set i bs2) m = parOf sets m := by
      unfold parOf
      rw [List.getElem?_set_ne (Ne.symm hm)]
    simp only [walkN, hpar]
    cases hp : parOf sets m with
    | none => rfl
    | some p =>
      apply ih
      intro t y ht hw
      apply havoid (t + 1) y (by omega)
      simp only [walkN, hpar, hp]
      exact hw

/-- A cycle through a node it visits is a cycle on that node, of the same
length. -/
theorem cycle_rotate (sets : List BehaviorSet) (m x k t : Nat)
    (ht : t ≤ k + 1) (hcyc : walkN sets (k + 1) m = some m)
    (hx : walkN sets t m = some x) :
    walkN sets (k + 1) x = some x := by
  have h1 : k + 1 = t + (k + 1 - t) := by omega
  rw [h1, walkN_add, hx] at hcyc
  dsimp only [Option.bind] at hcyc
  have h2 : k + 1 = (k + 1 - t) + t := by omega
  rw [h2, walkN_add, hcyc]
  dsimp only [Option.bind]
  exact hx

/-- A finished walk is seen by the bounded traversal of
setPrototypeOf. -/
theorem reaches_of_walkN (sets : List BehaviorSet) :
    ∀ (k j t : Nat), walkN sets k j = some t →
      reaches sets (k + 1) j t = true := by
  intro k
  induction k with
  | zero =>
    intro j t hw
    have hjt : j = t := Option.some.inj hw
    subst hjt
    simp [reaches]
  | succ k ih =>
    intro j t hw
    cases hp : parOf sets j with
    | none =>
      simp only [walkN, hp] at hw
      cases hw
    | some p =>
      simp only [walkN, hp] at hw
      have hr := ih p t hw
      simp only [reaches] at hr
      simp only [reaches, hp, hr, Bool.or_true]

/-- The bounded traversal only gains by more fuel. -/
theorem reaches_mono (sets : List BehaviorSet) :
    ∀ (f g i t : Nat), reaches sets f i t = true → f ≤ g →
      reaches sets g i t = true := by
  intro f
  induction f with
  | zero =>
    intro g i t h
    simp [reaches] at h
  | succ f ih =>
    intro g i t h hfg
    cases g with
    | zero => omega
    | succ g =>
      cases hjt : (i == t) with
      | true => simp only [reaches, hjt, Bool.true_or]
      | false =>
        cases hp : parOf sets i with
        | none =>
          simp only [reaches, hjt, hp, Bool.false_or] at h
          exact Bool.noConfusion h
        | some p =>
          simp only [reaches, hjt, hp, Bool.false_or] at h
          simp only [reaches, hjt, hp, Bool.false_or]
          exact ih g p t h (by omega)

/-- An empty start halts with any fuel. -/
theorem halts_none (sets : List BehaviorSet) (f : Nat) :
    halts sets f none = true := by
  cases f <;> rfl

/-- With no cycle around, every start halts within the bound. -/
theorem halts_all (sets : List BehaviorSet) (hac : Acyclic sets) :
    ∀ b, halts sets (sets.length + 1) b = true := by
  intro b
  cases b with
  | none => rfl
  | some x =>
    by_cases hx : x < sets.length
    · exact hac x hx
    · have hp : parOf sets x = none := by
        unfold parOf
        rw [List.getElem?_eq_none (by omega)]
      simp only [halts, hp]

/-- Resolution of a halting chain is unchanged by extra fuel. -/
theorem chainResolve_halts_stable (sets : List BehaviorSet) (nm : String) :
    ∀ (f : Nat) (b : Option Nat), halts sets f b = true →
      ∀ g, f ≤ g → chainResolve sets g b nm = chainResolve sets f b nm := by
  intro f
  induction f with
  | zero =>
    intro b hb g hg
    cases b with
    | none =>
      cases g <;> rfl
    | some x => simp [halts] at hb
  | succ f ih =>
    intro b hb g hg
    cases b with
    | none => cases g <;> rfl
    | some x =>
      cases g with
      | zero => omega
      | succ g =>
        simp only [chainResolve]
        cases hbx : sets[x]? with
        | none => rfl
        | some bs =>
          cases hl : lookupOp bs.ops nm with
          | some op =>
            dsimp only
            rw [hl]
          | none =>
            dsimp only
            rw [hl]
            have hb2 : halts sets f bs.parent = true := by
              cases hp : bs.parent with
              | none => exact halts_none sets f
              | some p =>
                have hpar : parOf sets x = some p := by
                  simp only [parOf, hbx, hp]
                simp only [halts, hpar] at hb
                exact hb
            exact ih bs.parent hb2 g (by omega)

/-- In a configuration without cycles, any finished walk is visible to
the bounded traversal that setPrototypeOf runs. -/
theorem reaches_of_walk_acyclic (sets : List BehaviorSet) (i j k : Nat)
    (hac : Acyclic sets) (hw : walkN sets k j = some i) :
    reaches sets (sets.length + 1) j i = true := by
  by_cases hj : j < sets.length
  · have hk := halts_walk_lt sets (sets.length + 1) j (hac j hj) k i hw
    exact reaches_mono sets (k + 1) (sets.length + 1) j i
      (reaches_of_walkN sets k j i hw) (by omega)
  · cases k with
    | zero =>
      have hij : j = i := Option.some.inj hw
      subst hij
      simp [reaches]
    | succ k2 =>
      exfalso
      have hp : parOf sets j = none := by
        unfold parOf
        rw [List.getElem?_eq_none (by omega)]
      simp only [walkN, hp] at hw
      cases hw

/-- A successful setPrototypeOf means the bounded traversal saw no
cycle, and the result is the one-position update. -/
theorem setProto_ok_shape (sets sets2 : List BehaviorSet) (i j : Nat)
    (hok : setPrototypeOf sets i j = .ok sets2) :
    reaches sets (sets.length + 1) j i = false ∧
    ∃ b, sets[i]? = some b ∧
      sets2 = sets.set i { b with parent := some j } := by
  cases hr : reaches sets (sets.length + 1) j i with
  | true =>
    exfalso
    unfold setPrototypeOf at hok
    rw [hr] at hok
    simp at hok
  | false =>
    refine ⟨rfl, ?_⟩
    unfold setPrototypeOf at hok
    rw [hr] at hok
    simp only [Bool.false_eq_true, if_false] at hok
    cases hbi : sets[i]? with
    | none =>
      rw [hbi] at hok
      cases hok
    | some b =>
      rw [hbi] at hok
      dsimp only at hok
      exact ⟨b, rfl, (Except.ok.inj hok).symm⟩

/-- A successful setPrototypeOf keeps the configuration cycle-free. -/
theorem setProto_preserves (sets sets2 : List BehaviorSet) (i j : Nat)
    (hac : Acyclic sets) (hok : setPrototypeOf sets i j = .ok sets2) :
    Acyclic sets2 := by
  obtain ⟨hreach, b, hb, hsets2⟩ := setProto_ok_shape sets sets2 i j hok
  have hnc : ∀ m k, walkN sets (k + 1) m ≠ some m :=
    noCycles_of_acyclic sets hac
  have hii : i < sets.length := lt_of_getElem?_eq_some hb
  have hnc2 : ∀ m k, walkN sets2 (k + 1) m ≠ some m := by
    intro m k hcyc
    by_cases hvisit : ∃ t, t ≤ k + 1 ∧ walkN sets2 t m = some i
    · obtain ⟨t, ht, hwt⟩ := hvisit
      have hcyci : walkN sets2 (k + 1) i = some i :=
        cycle_rotate sets2 m i k t ht hcyc hwt
      have hpi : parOf sets2 i = some j := by
        unfold parOf
        rw [hsets2, List.getElem?_set_self hii]
      simp only [walkN, hpi] at hcyci
      have hex : ∃ t0, walkN sets2 t0 j = some i := ⟨k, hcyci⟩
      obtain ⟨t0, ht0, hmin⟩ : ∃ t0, walkN sets2 t0 j = some i ∧
          ∀ t1, t1 < t0 → walkN sets2 t1 j ≠ some i :=
        ⟨Nat.find hex, Nat.find_spec hex,
          fun t1 h1 => Nat.find_min hex h1⟩
      have hagree : walkN sets2 t0 j = walkN sets t0 j := by
        rw [hsets2]
        rw [hsets2] at hmin
        apply walk_agree
        intro t1 y ht1 hwy hyi
        subst hyi
        exact hmin t1 ht1 hwy
      have hwalkold : walkN sets t0 j = some i := by
        rw [← hagree]
        exact ht0
      have hre := reaches_of_walk_acyclic sets i j t0 hac hwalkold
      rw [hre] at hreach
      cases hreach
    · push_neg at hvisit
      have hagree : walkN sets2 (k + 1) m = walkN sets (k + 1) m := by
        rw [hsets2]
        rw [hsets2] at hvisit
        apply walk_agree
        intro t y ht hwy hyi
        subst hyi
        exact hvisit t (by omega) hwy
      exact hnc m k (by rw [← hagree]; exact hcyc)
  exact acyclic_of_noCycles sets2 hnc2

/-- Claim C6: on a cycle-free configuration, any setPrototypeOf whose
proposed parent chain walks back to the object being re-pointed
(including the object itself, the zero-step walk) is refused with the
cycle error; a setPrototypeOf that succeeds keeps the configuration
cycle-free; and on a cycle-free configuration every resolution walk
terminates, in that fuel one past the number of behavior sets already
computes the answer of any larger fuel. -/
theorem claim6_cyclic_extension :
    (∀ (sets : List BehaviorSet) (i j k : Nat), Acyclic sets →
      walkN sets k j = some i →
      setPrototypeOf sets i j = .error .cyclicExtension) ∧
    (∀ (sets sets2 : List BehaviorSet) (i j : Nat), Acyclic sets →
      setPrototypeOf sets i j = .ok sets2 → Acyclic sets2) ∧
    (∀ (sets : List BehaviorSet) (b : Option Nat) (nm : String) (g : Nat),
      Acyclic sets → sets.length + 1 ≤ g →
      chainResolve sets g b nm =
        chainResolve sets (sets.length + 1) b nm) := by
  refine ⟨?_, ?_, ?_⟩
  · intro sets i j k hac hw
    unfold setPrototypeOf
    rw [reaches_of_walk_acyclic sets i j k hac hw]
    simp
  · intro sets sets2 i j hac hok
    exact setProto_preserves sets sets2 i j hac hok
  · intro sets b nm g hac hg
    exact chainResolve_halts_stable sets nm (sets.length + 1) b
      (halts_all sets hac b) g hg

theorem claim6_cyclic_extension_witness :
    setPrototypeOf stdSets 0 1 = .error .cyclicExtension ∧
    setPrototypeOf stdSets 0 0 = .error .cyclicExtension ∧
    Acyclic stdSets ∧
    chainResolve stdSets 10 (some 1) "increment" =
      chainResolve stdSets (stdSets.length + 1) (some 1) "increment" :=
  ⟨claim6_cyclic_extension.1 stdSets 0 1 1 (by decide) (by decide),
   claim6_cyclic_extension.1 stdSets 0 0 0 (by decide) (by decide),
   claim6_cyclic_extension.2.1 [userFunctions, paidUserFunctionsOrig]
     stdSets paidUserFunctionsId userFunctionsId (by decide) (by decide),
   claim6_cyclic_extension.2.2 stdSets (some 1) "increment" 10
     (by decide) (by decide)⟩
